import Mathlib

/-!
Shallow embedding of the isochrone core of the NYCOpenDataIsochrones
repository.  Both scripts define the same function
get_isochrone_from_graph, which snaps a coordinate to the nearest graph
node, writes a travel time attribute onto every edge of the shared graph,
takes the time bounded ego graph around the snapped node and returns the
convex hull of the coordinates of its nodes.  The scripts later clip the
resulting polygons to a base map with gpd.clip.  Graph weights are
rational numbers; the external library calls (osmnx nearest node lookup,
networkx ego graph, shapely convex hull, geopandas clip) are embedded by
executable functions computing the documented result of each call.
-/

namespace NYCIso

/-- Edge attribute dictionary of the street multigraph: the physical
length in meters and the optional time attribute that the scripts write
before each query. -/
structure EdgeData where
  length : ℚ
  time : Option ℚ
deriving DecidableEq

/-- One multigraph edge of the walkable street network: the two endpoint
identifiers, the parallel edge key and the attribute dictionary. -/
structure Edge where
  u : ℕ
  v : ℕ
  key : ℕ
  data : EdgeData
deriving DecidableEq

/-- One node of the street network with its identifier and its x and y
coordinates. -/
structure NodeEntry where
  id : ℕ
  x : ℚ
  y : ℚ
deriving DecidableEq

/-- The street network: the node list and the edge list of a directed
multigraph, as composed by the scripts. -/
structure Graph where
  nodes : List NodeEntry
  edges : List Edge
deriving DecidableEq

/-- Node identifiers of a graph, in node order. -/
def Graph.ids (G : Graph) : List ℕ := G.nodes.map NodeEntry.id

/-- The unit conversion of the scripts: meters_per_minute = speed * 1000
/ 60, the comment in the source reading km per hour to m per minute. -/
def metersPerMinute (speed : ℚ) : ℚ := speed * 1000 / 60

/-- Default value of the speed parameter of get_isochrone_from_graph and
value of the module level walk_speed constant of FSDOIsochrones.py. -/
def speed_default : ℚ := 3

/-- Default value of the walk_time parameter of
get_isochrone_from_graph. -/
def walk_time_default : ℚ := 10

/-- Per edge travel time, data length divided by meters_per_minute, as a
fallible computation: Python float division raises ZeroDivisionError on a
zero divisor. -/
def edgeTime? (len mpm : ℚ) : Option ℚ :=
  if mpm = 0 then none else some (len / mpm)

/-- The loop body of get_isochrone_from_graph applied along the edge
list: set the time attribute of every edge to length / meters_per_minute,
stopping with failure at the first zero division exactly as the Python
loop would. -/
def annotateEdges (mpm : ℚ) : List Edge → Option (List Edge)
  | [] => some []
  | e :: es =>
    match edgeTime? e.data.length mpm with
    | none => none
    | some t =>
      match annotateEdges mpm es with
      | none => none
      | some es2 => some ({ e with data := { e.data with time := some t } } :: es2)

/-- The in place edge time annotation pass of the scripts, returning the
new state of the graph, or failure when a division by zero is raised. -/
def annotate_times (G : Graph) (mpm : ℚ) : Option Graph :=
  (annotateEdges mpm G.edges).map (fun es => { G with edges := es })

/-- Squared Euclidean distance between two coordinate pairs. -/
def sqDist (a b : ℚ × ℚ) : ℚ :=
  (a.1 - b.1) * (a.1 - b.1) + (a.2 - b.2) * (a.2 - b.2)

/-- Model of ox.get_nearest_node: the graph node minimizing the distance
to the query point, the point being passed as a latitude longitude pair,
with the earlier node winning ties; the library call fails on a graph
without nodes.  The library measures great circle distance while the
model measures squared Euclidean distance over the same coordinates; no
claim depends on the choice of metric. -/
def get_nearest_node (G : Graph) (p : ℚ × ℚ) : Option ℕ :=
  match G.nodes with
  | [] => none
  | n0 :: rest =>
    some ((rest.foldl
      (fun best c =>
        if sqDist (c.y, c.x) p < sqDist (best.y, best.x) p then c else best)
      n0).id)

/-- Travel time weight of one edge as the shortest path search reads it:
the stored time attribute, defaulting to one when the attribute is
absent, as networkx does for a missing weight attribute. -/
def edgeWeight (e : Edge) : ℚ := e.data.time.getD 1

/-- Distance table at the start of the search: zero at the source and
nothing elsewhere. -/
def initDist (s : ℕ) : ℕ → Option ℚ :=
  fun n => if n = s then some 0 else none

/-- Relax one edge of the distance table: improve the entry of the edge
head from the entry of the edge tail. -/
def relaxEdge (d : ℕ → Option ℚ) (e : Edge) : ℕ → Option ℚ :=
  match d e.u with
  | none => d
  | some t =>
    fun n =>
      if n = e.v then
        match d e.v with
        | none => some (t + edgeWeight e)
        | some t3 => some (min t3 (t + edgeWeight e))
      else d n

/-- Relax every edge of the list once, in list order. -/
def relaxList (es : List Edge) (d : ℕ → Option ℚ) : ℕ → Option ℚ :=
  es.foldl relaxEdge d

/-- k rounds of relaxation of the whole edge list, starting from the
initial table of the source. -/
def bfIter (G : Graph) (s : ℕ) : ℕ → (ℕ → Option ℚ)
  | 0 => initDist s
  | k + 1 => relaxList G.edges (bfIter G s k)

/-- Shortest path travel time from the source, computed by as many
relaxation rounds as the graph has nodes. -/
def bfDist (G : Graph) (s : ℕ) : ℕ → Option ℚ :=
  bfIter G s G.nodes.length

/-- Whether a distance table entry exists and stays within the budget. -/
def withinBudget (d : Option ℚ) (b : ℚ) : Bool :=
  match d with
  | some t => decide (t ≤ b)
  | none => false

/-- Model of nx.ego_graph with a distance weight, the node set of the
radius bounded shortest path subgraph around the source: every node whose
shortest path travel time from the source is within the budget, the
center node itself always kept, exactly as the library keeps the source
of its Dijkstra search. -/
def reachable (G : Graph) (s : ℕ) (b : ℚ) : List ℕ :=
  (G.nodes.filter
    (fun nd => decide (nd.id = s) || withinBudget (bfDist G s nd.id) b)).map
    NodeEntry.id

/-- Coordinates of the nodes of a subgraph, in graph node order, as the
scripts collect them from subgraph.nodes. -/
def nodePoints (G : Graph) (sub : List ℕ) : List (ℚ × ℚ) :=
  (G.nodes.filter (fun nd => sub.contains nd.id)).map (fun nd => (nd.x, nd.y))

/-- Model of the shapely convex hull of the union of a finite list of
points: the convex hull of the corresponding point set. -/
def hullOf (pts : List (ℚ × ℚ)) : Set (ℚ × ℚ) :=
  convexHull ℚ { p | p ∈ pts }

/-- Model of gpd.clip: the geometric intersection of a geometry with the
clip mask; the empty set is the explicit empty result marker the library
returns for an empty intersection. -/
def clip (P B : Set (ℚ × ℚ)) : Set (ℚ × ℚ) := P ∩ B

namespace FSDO

/-- The isochrone function of FSDOIsochrones.py: snap the coordinate to
the nearest node, write the time attribute of every edge of the shared
graph, take the time bounded ego graph and return the convex hull of the
coordinates of its nodes.  The value is the returned polygon, when the
call succeeds, paired with the final state of the shared graph. -/
def get_isochrone_from_graph (G : Graph) (x y walk_time speed : ℚ) :
    Option (Set (ℚ × ℚ)) × Graph :=
  match get_nearest_node G (y, x) with
  | none => (none, G)
  | some center_node =>
    match annotate_times G (metersPerMinute speed) with
    | none => (none, G)
    | some G2 =>
      (some (hullOf (nodePoints G2 (reachable G2 center_node walk_time))), G2)

end FSDO

namespace SP

/-- The isochrone function of SwimmingPoolIsochrones.py, embedded from
its own source text, which coincides with the one of FSDOIsochrones.py
line for line. -/
def get_isochrone_from_graph (G : Graph) (x y walk_time speed : ℚ) :
    Option (Set (ℚ × ℚ)) × Graph :=
  match get_nearest_node G (y, x) with
  | none => (none, G)
  | some center_node =>
    match annotate_times G (metersPerMinute speed) with
    | none => (none, G)
    | some G2 =>
      (some (hullOf (nodePoints G2 (reachable G2 center_node walk_time))), G2)

end SP

/-- A walk in the graph: a chained list of edges of G leading from the
first node to the second. -/
inductive IsWalk (G : Graph) : ℕ → List Edge → ℕ → Prop
  | nil (u : ℕ) : IsWalk G u [] u
  | cons {u v : ℕ} {e : Edge} {p : List Edge} :
      e ∈ G.edges → e.u = u → IsWalk G e.v p v → IsWalk G u (e :: p) v

/-- Cumulative travel time along a walk. -/
def walkWeight (p : List Edge) : ℚ := (p.map edgeWeight).sum

/-- Concrete graph with two nodes and one edge of length sixty meters
carrying no time attribute, as a graph looks before its first query. -/
def mutG : Graph :=
  { nodes := [⟨0, 0, 0⟩, ⟨1, 1, 0⟩],
    edges := [⟨0, 1, 0, ⟨60, none⟩⟩] }

/-- Concrete graph with a single zero length edge and no time
attribute. -/
def czG : Graph :=
  { nodes := [⟨0, 0, 0⟩, ⟨1, 1, 1⟩],
    edges := [⟨0, 1, 0, ⟨0, none⟩⟩] }

/-- The zero length graph czG after the edge time annotation pass: the
zero length edge carries zero travel time. -/
def czGA : Graph :=
  { nodes := [⟨0, 0, 0⟩, ⟨1, 1, 1⟩],
    edges := [⟨0, 1, 0, ⟨0, some 0⟩⟩] }

/-- Concrete graph with two nodes and one edge whose annotated travel
time is two minutes. -/
def posG : Graph :=
  { nodes := [⟨0, 0, 0⟩, ⟨1, 1, 0⟩],
    edges := [⟨0, 1, 0, ⟨100, some 2⟩⟩] }

/-- Soundness invariant of a distance table: every recorded distance is
realized exactly by some walk from the source. -/
def Sound (G : Graph) (s : ℕ) (d : ℕ → Option ℚ) : Prop :=
  ∀ n t, d n = some t → ∃ p, IsWalk G s p n ∧ walkWeight p = t

lemma isWalk_nil_iff (G : Graph) (u v : ℕ) : IsWalk G u [] v ↔ u = v := by
  constructor
  · intro h; cases h; rfl
  · intro h; cases h; exact IsWalk.nil u

lemma isWalk_cons_iff (G : Graph) (u v : ℕ) (e : Edge) (p : List Edge) :
    IsWalk G u (e :: p) v ↔ e ∈ G.edges ∧ e.u = u ∧ IsWalk G e.v p v := by
  constructor
  · intro h
    cases h with
    | cons h1 h2 h3 => exact ⟨h1, h2, h3⟩
  · rintro ⟨h1, h2, h3⟩
    exact IsWalk.cons h1 h2 h3

lemma isWalk_append (G : Graph) (p : List Edge) :
    ∀ (u v : ℕ) (q : List Edge),
      IsWalk G u (p ++ q) v ↔ ∃ m, IsWalk G u p m ∧ IsWalk G m q v := by
  induction p with
  | nil =>
    intro u v q
    constructor
    · intro h
      exact ⟨u, IsWalk.nil u, h⟩
    · rintro ⟨m, hm, h⟩
      have hum : u = m := (isWalk_nil_iff G u m).1 hm
      rw [hum]
      exact h
  | cons e p ih =>
    intro u v q
    constructor
    · intro h
      rcases (isWalk_cons_iff G u v e (p ++ q)).1 h with ⟨h1, h2, h3⟩
      rcases (ih e.v v q).1 h3 with ⟨m, hm1, hm2⟩
      exact ⟨m, IsWalk.cons h1 h2 hm1, hm2⟩
    · rintro ⟨m, hm, h⟩
      rcases (isWalk_cons_iff G u m e p).1 hm with ⟨h1, h2, h3⟩
      exact IsWalk.cons h1 h2 ((ih e.v v q).2 ⟨m, h3, h⟩)

@[simp] lemma walkWeight_nil : walkWeight [] = 0 := rfl

@[simp] lemma walkWeight_cons (e : Edge) (p : List Edge) :
    walkWeight (e :: p) = edgeWeight e + walkWeight p := by
  simp [walkWeight]

@[simp] lemma walkWeight_append (p q : List Edge) :
    walkWeight (p ++ q) = walkWeight p + walkWeight q := by
  simp [walkWeight]

lemma isWalk_edges_mem {G : Graph} {u v : ℕ} {p : List Edge}
    (h : IsWalk G u p v) : ∀ e ∈ p, e ∈ G.edges := by
  induction h with
  | nil => intro e he; cases he
  | cons h1 h2 h3 ih =>
    intro f hf
    rcases List.mem_cons.1 hf with hh | hh
    · rw [hh]; exact h1
    · exact ih f hh

lemma walkWeight_nonneg {p : List Edge}
    (h : ∀ e ∈ p, 0 ≤ edgeWeight e) : 0 ≤ walkWeight p := by
  induction p with
  | nil => simp
  | cons e p ih =>
    have h1 := h e (List.mem_cons_self e p)
    have h2 := ih (fun f hf => h f (List.mem_cons_of_mem e hf))
    simp only [walkWeight_cons]
    linarith

lemma isWalk_end_cases {G : Graph} {u v : ℕ} {p : List Edge}
    (h : IsWalk G u p v) : v = u ∨ ∃ e ∈ p, e.v = v := by
  induction h with
  | nil => exact Or.inl rfl
  | @cons u2 v2 e p2 h1 h2 h3 ih =>
    rcases ih with hh | ⟨f, hf, hfv⟩
    · exact Or.inr ⟨e, List.mem_cons_self e p2, hh.symm⟩
    · exact Or.inr ⟨f, List.mem_cons_of_mem e hf, hfv⟩

lemma relaxEdge_none {d : ℕ → Option ℚ} {e : Edge} (hdu : d e.u = none) :
    relaxEdge d e = d := by
  simp [relaxEdge, hdu]

lemma relaxEdge_ne {d : ℕ → Option ℚ} {e : Edge} {n : ℕ} (hn : n ≠ e.v) :
    relaxEdge d e n = d n := by
  rcases hdu : d e.u with _ | t
  · simp [relaxEdge, hdu]
  · simp [relaxEdge, hdu, hn]

lemma relaxEdge_v_none {d : ℕ → Option ℚ} {e : Edge} {tu : ℚ}
    (hdu : d e.u = some tu) (hdv : d e.v = none) :
    relaxEdge d e e.v = some (tu + edgeWeight e) := by
  simp [relaxEdge, hdu, hdv]

lemma relaxEdge_v_some {d : ℕ → Option ℚ} {e : Edge} {tu tv : ℚ}
    (hdu : d e.u = some tu) (hdv : d e.v = some tv) :
    relaxEdge d e e.v = some (min tv (tu + edgeWeight e)) := by
  simp [relaxEdge, hdu, hdv]

lemma relaxList_nil (d : ℕ → Option ℚ) : relaxList [] d = d := rfl

lemma relaxList_cons (e : Edge) (es : List Edge) (d : ℕ → Option ℚ) :
    relaxList (e :: es) d = relaxList es (relaxEdge d e) := rfl

lemma relaxList_append (l1 l2 : List Edge) (d : ℕ → Option ℚ) :
    relaxList (l1 ++ l2) d = relaxList l2 (relaxList l1 d) := by
  simp [relaxList, List.foldl_append]

lemma sound_relaxEdge {G : Graph} {s : ℕ} {d : ℕ → Option ℚ}
    (hd : Sound G s d) {e : Edge} (he : e ∈ G.edges) :
    Sound G s (relaxEdge d e) := by
  intro n t h
  rcases hdu : d e.u with _ | tu
  · rw [relaxEdge_none hdu] at h
    exact hd n t h
  · by_cases hn : n = e.v
    · subst hn
      rcases hd e.u tu hdu with ⟨p, hp, hpw⟩
      have hsnoc : IsWalk G s (p ++ [e]) e.v :=
        (isWalk_append G p s e.v [e]).2
          ⟨e.u, hp, IsWalk.cons he rfl (IsWalk.nil e.v)⟩
      have hsw : walkWeight (p ++ [e]) = tu + edgeWeight e := by
        simp [hpw]
      rcases hdv : d e.v with _ | tv
      · rw [relaxEdge_v_none hdu hdv] at h
        have ht : tu + edgeWeight e = t := Option.some.inj h
        exact ⟨p ++ [e], hsnoc, by rw [hsw, ht]⟩
      · rw [relaxEdge_v_some hdu hdv] at h
        have ht : min tv (tu + edgeWeight e) = t := Option.some.inj h
        rcases min_cases tv (tu + edgeWeight e) with ⟨hmin, _⟩ | ⟨hmin, _⟩
        · rw [hmin] at ht
          rw [← ht]
          exact hd e.v tv hdv
        · rw [hmin] at ht
          exact ⟨p ++ [e], hsnoc, by rw [hsw, ht]⟩
    · rw [relaxEdge_ne hn] at h
      exact hd n t h

lemma sound_relaxList {G : Graph} {s : ℕ} (es : List Edge)
    (hes : ∀ e ∈ es, e ∈ G.edges) :
    ∀ d : ℕ → Option ℚ, Sound G s d → Sound G s (relaxList es d) := by
  induction es with
  | nil => intro d hd; rw [relaxList_nil]; exact hd
  | cons e es ih =>
    intro d hd
    rw [relaxList_cons]
    exact ih (fun f hf => hes f (List.mem_cons_of_mem e hf))
      (relaxEdge d e) (sound_relaxEdge hd (hes e (List.mem_cons_self e es)))

lemma sound_initDist (G : Graph) (s : ℕ) : Sound G s (initDist s) := by
  intro n t h
  unfold initDist at h
  by_cases hn : n = s
  · subst hn
    rw [if_pos rfl] at h
    have ht : (0 : ℚ) = t := Option.some.inj h
    exact ⟨[], IsWalk.nil n, by rw [← ht]; simp⟩
  · rw [if_neg hn] at h
    cases h

lemma sound_bfIter (G : Graph) (s : ℕ) (k : ℕ) : Sound G s (bfIter G s k) := by
  induction k with
  | zero => exact sound_initDist G s
  | succ k ih =>
    show Sound G s (relaxList G.edges (bfIter G s k))
    exact sound_relaxList G.edges (fun e he => he) (bfIter G s k) ih

lemma sound_bfDist (G : Graph) (s : ℕ) : Sound G s (bfDist G s) :=
  sound_bfIter G s G.nodes.length

lemma relaxEdge_le {d : ℕ → Option ℚ} (e : Edge) {n : ℕ} {t : ℚ}
    (h : d n = some t) :
    ∃ u, relaxEdge d e n = some u ∧ u ≤ t := by
  rcases hdu : d e.u with _ | tu
  · exact ⟨t, by rw [relaxEdge_none hdu]; exact h, le_refl t⟩
  · by_cases hn : n = e.v
    · subst hn
      exact ⟨min t (tu + edgeWeight e), relaxEdge_v_some hdu h, min_le_left t _⟩
    · exact ⟨t, by rw [relaxEdge_ne hn]; exact h, le_refl t⟩

lemma relaxList_le (es : List Edge) {d : ℕ → Option ℚ} {n : ℕ} {t : ℚ}
    (h : d n = some t) :
    ∃ u, relaxList es d n = some u ∧ u ≤ t := by
  induction es generalizing d t with
  | nil => exact ⟨t, h, le_refl t⟩
  | cons e es ih =>
    rcases relaxEdge_le e h with ⟨u, hu, hut⟩
    rcases ih hu with ⟨w, hw, hwu⟩
    exact ⟨w, by rw [relaxList_cons]; exact hw, le_trans hwu hut⟩

lemma relaxEdge_step {d : ℕ → Option ℚ} {e : Edge} {t : ℚ}
    (h : d e.u = some t) :
    ∃ u, relaxEdge d e e.v = some u ∧ u ≤ t + edgeWeight e := by
  rcases hdv : d e.v with _ | tv
  · exact ⟨t + edgeWeight e, relaxEdge_v_none h hdv, le_refl _⟩
  · exact ⟨min tv (t + edgeWeight e), relaxEdge_v_some h hdv, min_le_right tv _⟩

lemma relaxList_step {es : List Edge} {e : Edge} (he : e ∈ es)
    {d : ℕ → Option ℚ} {t : ℚ} (h : d e.u = some t) :
    ∃ u, relaxList es d e.v = some u ∧ u ≤ t + edgeWeight e := by
  rcases List.append_of_mem he with ⟨l1, l2, rfl⟩
  rcases relaxList_le l1 h with ⟨t1, h1, ht1⟩
  rcases relaxEdge_step h1 with ⟨t2, h2, ht2⟩
  rcases relaxList_le l2 h2 with ⟨t3, h3, ht3⟩
  refine ⟨t3, ?_, ?_⟩
  · rw [relaxList_append, relaxList_cons]
    exact h3
  · have hmid : t1 + edgeWeight e ≤ t + edgeWeight e := by linarith
    exact le_trans ht3 (le_trans ht2 hmid)

lemma bfIter_complete (G : Graph) (s : ℕ) :
    ∀ (k : ℕ) (p : List Edge) (n : ℕ), IsWalk G s p n → p.length ≤ k →
      ∃ t, bfIter G s k n = some t ∧ t ≤ walkWeight p := by
  intro k
  induction k with
  | zero =>
    intro p n hwalk hl
    have hp : p = [] := List.length_eq_zero.1 (Nat.le_zero.1 hl)
    subst hp
    have hsn : s = n := (isWalk_nil_iff G s n).1 hwalk
    subst hsn
    exact ⟨0, by simp [bfIter, initDist], by simp⟩
  | succ k ih =>
    intro p n hwalk hl
    rcases List.eq_nil_or_concat p with rfl | ⟨q, e, rfl⟩
    · have hsn : s = n := (isWalk_nil_iff G s n).1 hwalk
      subst hsn
      rcases ih [] s (IsWalk.nil s) (by simp) with ⟨t, ht, ht0⟩
      rcases relaxList_le G.edges ht with ⟨u, hu, hut⟩
      exact ⟨u, hu, by simpa using le_trans hut ht0⟩
    · rw [List.concat_eq_append] at hwalk hl ⊢
      rcases (isWalk_append G q s n [e]).1 hwalk with ⟨m, hq, he2⟩
      rcases (isWalk_cons_iff G m n e []).1 he2 with ⟨heG, heu, hev⟩
      have hn : e.v = n := (isWalk_nil_iff G e.v n).1 hev
      have hlq : q.length ≤ k := by
        simp at hl
        omega
      rcases ih q m hq hlq with ⟨t, ht, htw⟩
      rw [← heu] at ht
      rcases relaxList_step heG ht with ⟨u, hu, hut⟩
      refine ⟨u, ?_, ?_⟩
      · rw [← hn]
        exact hu
      · have hww : walkWeight (q ++ [e]) = walkWeight q + edgeWeight e := by
          simp
        rw [hww]
        linarith

lemma bfDist_source (G : Graph) (s : ℕ)
    (hw : ∀ e ∈ G.edges, 0 ≤ edgeWeight e) : bfDist G s s = some 0 := by
  rcases bfIter_complete G s G.nodes.length [] s (IsWalk.nil s) (by simp)
    with ⟨t, ht, ht0⟩
  rcases sound_bfIter G s G.nodes.length s t ht with ⟨p, hp, hpw⟩
  have h0 : 0 ≤ t := by
    rw [← hpw]
    exact walkWeight_nonneg (fun e he => hw e (isWalk_edges_mem hp e he))
  have ht0q : t ≤ 0 := by simpa using ht0
  have : t = 0 := le_antisymm ht0q h0
  rw [bfDist, ht, this]

lemma withinBudget_iff (d : Option ℚ) (b : ℚ) :
    withinBudget d b = true ↔ ∃ t, d = some t ∧ t ≤ b := by
  cases d with
  | none => simp [withinBudget]
  | some t => simp [withinBudget]

lemma mem_graph_ids (G : Graph) (n : ℕ) :
    n ∈ G.ids ↔ ∃ nd ∈ G.nodes, nd.id = n := by
  simp [Graph.ids]

lemma mem_reachable_iff (G : Graph) (s : ℕ) (b : ℚ) (n : ℕ) :
    n ∈ reachable G s b ↔
      n ∈ G.ids ∧ (n = s ∨ ∃ t, bfDist G s n = some t ∧ t ≤ b) := by
  unfold reachable
  constructor
  · intro h
    rcases List.mem_map.1 h with ⟨nd, hnd, rfl⟩
    rcases List.mem_filter.1 hnd with ⟨hmem, hpred⟩
    refine ⟨(mem_graph_ids G nd.id).2 ⟨nd, hmem, rfl⟩, ?_⟩
    rcases Bool.or_eq_true_iff.1 hpred with h1 | h2
    · exact Or.inl (of_decide_eq_true h1)
    · rcases (withinBudget_iff (bfDist G s nd.id) b).1 h2 with ⟨t, ht, htb⟩
      exact Or.inr ⟨t, ht, htb⟩
  · rintro ⟨hid, hcase⟩
    rcases (mem_graph_ids G n).1 hid with ⟨nd, hnd, rfl⟩
    refine List.mem_map.2 ⟨nd, List.mem_filter.2 ⟨hnd, ?_⟩, rfl⟩
    rcases hcase with h1 | ⟨t, ht, htb⟩
    · exact Bool.or_eq_true_iff.2 (Or.inl (decide_eq_true h1))
    · exact Bool.or_eq_true_iff.2
        (Or.inr ((withinBudget_iff (bfDist G s nd.id) b).2 ⟨t, ht, htb⟩))

lemma map_split {α β : Type} (f : α → β) :
    ∀ (p : List α) (m1 : List β) (x : β) (m2 : List β), p.map f = m1 ++ x :: m2 →
      ∃ q1 a q2, p = q1 ++ a :: q2 ∧ f a = x ∧ q1.map f = m1 ∧ q2.map f = m2 := by
  intro p
  induction p with
  | nil =>
    intro m1 x m2 h
    exfalso
    cases m1 <;> simp at h
  | cons a p ih =>
    intro m1 x m2 h
    cases m1 with
    | nil =>
      simp at h
      exact ⟨[], a, p, rfl, h.1, rfl, h.2⟩
    | cons y m1 =>
      simp at h
      rcases ih m1 x m2 h.2 with ⟨q1, e, q2, hp, hfe, hq1, hq2⟩
      exact ⟨a :: q1, e, q2, by rw [hp]; rfl, hfe, by simp [h.1, hq1], hq2⟩

lemma exists_dup_split {α : Type} :
    ∀ l : List α, ¬ l.Nodup → ∃ a l1 l2 l3, l = l1 ++ a :: (l2 ++ a :: l3) := by
  intro l
  induction l with
  | nil => intro h; exact absurd List.nodup_nil h
  | cons x xs ih =>
    intro h
    by_cases hx : x ∈ xs
    · rcases List.append_of_mem hx with ⟨s1, s2, rfl⟩
      exact ⟨x, [], s1, s2, rfl⟩
    · have hxs : ¬ xs.Nodup := fun hnd => h (List.nodup_cons.2 ⟨hx, hnd⟩)
      rcases ih hxs with ⟨a, l1, l2, l3, hl⟩
      exact ⟨a, x :: l1, l2, l3, by rw [hl]; rfl⟩

lemma nodup_subset_length {α : Type} {l1 l2 : List α}
    (h1 : l1.Nodup) (h2 : l1 ⊆ l2) : l1.length ≤ l2.length :=
  (List.subperm_of_subset h1 h2).length_le

lemma walk_shorten (G : Graph) (s : ℕ)
    (hw : ∀ e ∈ G.edges, 0 ≤ edgeWeight e) :
    ∀ (L : ℕ) (p : List Edge) (n : ℕ), p.length ≤ L → IsWalk G s p n →
      ∃ q, IsWalk G s q n ∧ walkWeight q ≤ walkWeight p ∧
        (s :: q.map Edge.v).Nodup := by
  intro L
  induction L with
  | zero =>
    intro p n hl hwalk
    have hp : p = [] := List.length_eq_zero.1 (Nat.le_zero.1 hl)
    subst hp
    exact ⟨[], hwalk, le_refl _, by simp⟩
  | succ L ih =>
    intro p n hl hwalk
    by_cases hs : s ∈ p.map Edge.v
    · rcases List.mem_map.1 hs with ⟨e, hep, hev⟩
      rcases List.append_of_mem hep with ⟨p1, p2, rfl⟩
      rcases (isWalk_append G p1 s n (e :: p2)).1 hwalk with ⟨m, h1, h2⟩
      rcases (isWalk_cons_iff G m n e p2).1 h2 with ⟨heG, heu, hewalk⟩
      rw [hev] at hewalk
      have hl2 : p2.length ≤ L := by
        simp at hl
        omega
      rcases ih p2 n hl2 hewalk with ⟨q, hq, hqw, hqnd⟩
      refine ⟨q, hq, ?_, hqnd⟩
      have h0 : 0 ≤ walkWeight p1 :=
        walkWeight_nonneg (fun f hf => hw f (isWalk_edges_mem h1 f hf))
      have h0e : 0 ≤ edgeWeight e := hw e heG
      have hww : walkWeight (p1 ++ e :: p2) =
          walkWeight p1 + (edgeWeight e + walkWeight p2) := by simp
      rw [hww]
      linarith
    · by_cases hnd : (p.map Edge.v).Nodup
      · exact ⟨p, hwalk, le_refl _, List.nodup_cons.2 ⟨hs, hnd⟩⟩
      · rcases exists_dup_split _ hnd with ⟨a, m1, m2, m3, hmap⟩
        rcases map_split Edge.v p m1 a (m2 ++ a :: m3) hmap with
          ⟨p1, e, rest, hp, hea, hp1, hrest⟩
        rcases map_split Edge.v rest m2 a m3 hrest with
          ⟨p2, f, p3, hr, hfa, hp2, hp3⟩
        subst hr
        subst hp
        rcases (isWalk_append G p1 s n (e :: (p2 ++ f :: p3))).1 hwalk with
          ⟨m, h1, h2⟩
        rcases (isWalk_cons_iff G m n e (p2 ++ f :: p3)).1 h2 with
          ⟨heG, heu, h3⟩
        rcases (isWalk_append G p2 e.v n (f :: p3)).1 h3 with ⟨m2n, h4, h5⟩
        rcases (isWalk_cons_iff G m2n n f p3).1 h5 with ⟨hfG, hfu, h6⟩
        have hef : e.v = f.v := by rw [hea, hfa]
        rw [← hef] at h6
        have hnew : IsWalk G s (p1 ++ e :: p3) n :=
          (isWalk_append G p1 s n (e :: p3)).2 ⟨m, h1, IsWalk.cons heG heu h6⟩
        have hlen : (p1 ++ e :: p3).length ≤ L := by
          simp at hl ⊢
          omega
        rcases ih (p1 ++ e :: p3) n hlen hnew with ⟨q, hq, hqw, hqnd⟩
        refine ⟨q, hq, ?_, hqnd⟩
        have h0 : 0 ≤ walkWeight p2 :=
          walkWeight_nonneg (fun g hg => hw g (isWalk_edges_mem h4 g hg))
        have h0f : 0 ≤ edgeWeight f := hw f hfG
        have hws : walkWeight (p1 ++ e :: (p2 ++ f :: p3)) =
            walkWeight p1 + (edgeWeight e +
              (walkWeight p2 + (edgeWeight f + walkWeight p3))) := by simp
        have hws2 : walkWeight (p1 ++ e :: p3) =
            walkWeight p1 + (edgeWeight e + walkWeight p3) := by simp
        rw [hws]
        rw [hws2] at hqw
        linarith

/-- C2: for a source present in the graph, a non negative budget, non
negative edge times and edges whose endpoints are graph nodes, a node
lies in reachable(G, s, b) exactly when some path from the source
reaches it with cumulative traversal time at most b; in particular the
source itself always lies in the set, with cumulative time zero, also
when it has no edges. -/
theorem reachable_iff_walk_within_budget (G : Graph) (s : ℕ) (b : ℚ)
    (hs : s ∈ G.ids) (hb : 0 ≤ b)
    (hw : ∀ e ∈ G.edges, 0 ≤ edgeWeight e)
    (hcl : ∀ e ∈ G.edges, e.u ∈ G.ids ∧ e.v ∈ G.ids) :
    (∀ n, n ∈ reachable G s b ↔ ∃ p, IsWalk G s p n ∧ walkWeight p ≤ b)
    ∧ s ∈ reachable G s b ∧ bfDist G s s = some 0 := by
  refine ⟨?_, (mem_reachable_iff G s b s).2 ⟨hs, Or.inl rfl⟩,
    bfDist_source G s hw⟩
  intro n
  constructor
  · intro h
    rcases (mem_reachable_iff G s b n).1 h with ⟨hid, hcase⟩
    rcases hcase with rfl | ⟨t, ht, htb⟩
    · exact ⟨[], IsWalk.nil n, by simpa using hb⟩
    · rcases sound_bfDist G s n t ht with ⟨p, hp, hpw⟩
      exact ⟨p, hp, by rw [hpw]; exact htb⟩
  · rintro ⟨p, hp, hpb⟩
    rcases walk_shorten G s hw p.length p n (le_refl _) hp with
      ⟨q, hq, hqw, hqnd⟩
    have hsubset : (s :: q.map Edge.v) ⊆ G.ids := by
      intro x hx
      rcases List.mem_cons.1 hx with rfl | hx2
      · exact hs
      · rcases List.mem_map.1 hx2 with ⟨e, he, rfl⟩
        exact (hcl e (isWalk_edges_mem hq e he)).2
    have hlen : q.length + 1 ≤ G.nodes.length := by
      have h1 := nodup_subset_length hqnd hsubset
      simpa [Graph.ids] using h1
    rcases bfIter_complete G s G.nodes.length q n hq (by omega) with
      ⟨t, ht, htw⟩
    have hnid : n ∈ G.ids := by
      rcases isWalk_end_cases hq with rfl | ⟨e, he, hev⟩
      · exact hs
      · rw [← hev]
        exact (hcl e (isWalk_edges_mem hq e he)).2
    exact (mem_reachable_iff G s b n).2
      ⟨hnid, Or.inr ⟨t, ht, le_trans htw (le_trans hqw hpb)⟩⟩

/-- Witness for C2 at a concrete two node graph with one edge of travel
time two minutes and budget ten minutes. -/
theorem reachable_iff_walk_witness :
    (0 ∈ posG.ids ∧ (0:ℚ) ≤ 10 ∧ (∀ e ∈ posG.edges, 0 ≤ edgeWeight e)
      ∧ (∀ e ∈ posG.edges, e.u ∈ posG.ids ∧ e.v ∈ posG.ids))
    ∧ ((∀ n, n ∈ reachable posG 0 10 ↔
          ∃ p, IsWalk posG 0 p n ∧ walkWeight p ≤ 10)
      ∧ 0 ∈ reachable posG 0 10 ∧ bfDist posG 0 0 = some 0) :=
  ⟨⟨by decide, by decide, by decide, by decide⟩,
    reachable_iff_walk_within_budget posG 0 10 (by decide) (by decide)
      (by decide) (by decide)⟩

/-- C3: enlarging the budget only enlarges the reachable node set. -/
theorem reachable_monotone_in_budget (G : Graph) (s : ℕ) (b1 b2 : ℚ)
    (_hs : s ∈ G.ids) (hb : b1 ≤ b2) :
    ∀ n, n ∈ reachable G s b1 → n ∈ reachable G s b2 := by
  intro n h
  rcases (mem_reachable_iff G s b1 n).1 h with ⟨hid, hcase⟩
  refine (mem_reachable_iff G s b2 n).2 ⟨hid, ?_⟩
  rcases hcase with h1 | ⟨t, ht, htb⟩
  · exact Or.inl h1
  · exact Or.inr ⟨t, ht, le_trans htb hb⟩

/-- Witness for C3 at a concrete graph with budgets one and ten. -/
theorem reachable_monotone_witness :
    (0 ∈ posG.ids ∧ (1:ℚ) ≤ 10)
    ∧ (∀ n, n ∈ reachable posG 0 1 → n ∈ reachable posG 0 10) :=
  ⟨⟨by decide, by decide⟩,
    reachable_monotone_in_budget posG 0 1 10 (by decide) (by decide)⟩

/-- C4 counterexample: a zero length edge receives zero traversal time
from the annotation pass, and then the budget zero reachable set of its
graph also contains the far endpoint of the edge, so the set is not the
singleton of the source. -/
theorem zero_budget_not_singleton_on_zero_length_edge :
    annotate_times czG (metersPerMinute speed_default) = some czGA
    ∧ 1 ∈ reachable czGA 0 0 ∧ (1 : ℕ) ≠ 0 := by
  refine ⟨?_, ?_, by decide⟩
  · norm_num [annotate_times, annotateEdges, edgeTime?, metersPerMinute,
      czG, czGA, speed_default]
  · norm_num [reachable, bfDist, bfIter, relaxList, relaxEdge, initDist,
      edgeWeight, withinBudget, czGA]

/-- C4 amended: when every edge carries strictly positive traversal
time, the budget zero reachable set is exactly the singleton of the
source, at cumulative time zero. -/
theorem zero_budget_singleton_of_pos_times (G : Graph) (s : ℕ)
    (hs : s ∈ G.ids) (hw : ∀ e ∈ G.edges, 0 < edgeWeight e) :
    (∀ n, n ∈ reachable G s 0 ↔ n = s) ∧ bfDist G s s = some 0 := by
  have hw0 : ∀ e ∈ G.edges, 0 ≤ edgeWeight e := fun e he => le_of_lt (hw e he)
  refine ⟨?_, bfDist_source G s hw0⟩
  intro n
  constructor
  · intro h
    rcases (mem_reachable_iff G s 0 n).1 h with ⟨hid, hcase⟩
    rcases hcase with h1 | ⟨t, ht, htb⟩
    · exact h1
    · rcases sound_bfDist G s n t ht with ⟨p, hp, hpw⟩
      cases p with
      | nil => exact ((isWalk_nil_iff G s n).1 hp).symm
      | cons e p2 =>
        exfalso
        rcases (isWalk_cons_iff G s n e p2).1 hp with ⟨heG, _, hrest⟩
        have hpos : 0 < edgeWeight e := hw e heG
        have hnn : 0 ≤ walkWeight p2 :=
          walkWeight_nonneg (fun f hf => hw0 f (isWalk_edges_mem hrest f hf))
        have hcw : walkWeight (e :: p2) = edgeWeight e + walkWeight p2 :=
          walkWeight_cons e p2
        rw [hcw] at hpw
        rw [← hpw] at htb
        linarith
  · intro hn
    rw [hn]
    exact (mem_reachable_iff G s 0 s).2 ⟨hs, Or.inl rfl⟩

/-- Witness for the amended C4 at a concrete graph with a strictly
positive edge time. -/
theorem zero_budget_singleton_witness :
    (0 ∈ posG.ids ∧ (∀ e ∈ posG.edges, 0 < edgeWeight e))
    ∧ ((∀ n, n ∈ reachable posG 0 0 ↔ n = 0) ∧ bfDist posG 0 0 = some 0) :=
  ⟨⟨by decide, by decide⟩,
    zero_budget_singleton_of_pos_times posG 0 (by decide) (by decide)⟩

/-- C1: evaluating get_isochrone_from_graph on a concrete shared graph
changes the edge state of that graph: the time attribute of every edge
is written in place with the value derived from the query speed, so the
edge state observed afterwards, for instance by an in flight computation
with a different speed, differs from the state before the call. -/
theorem isochrone_mutates_shared_graph :
    (FSDO.get_isochrone_from_graph mutG 0 0 10 3).2 ≠ mutG
    ∧ (FSDO.get_isochrone_from_graph mutG 0 0 10 3).2.edges.map
        (fun e => e.data.time) = [some (6 / 5)]
    ∧ mutG.edges.map (fun e => e.data.time) = [none] := by
  have h3 : mutG.edges.map (fun e => e.data.time) = [none] := by decide
  have h2 : (FSDO.get_isochrone_from_graph mutG 0 0 10 3).2.edges.map
      (fun e => e.data.time) = [some (6 / 5)] := by
    norm_num [FSDO.get_isochrone_from_graph, get_nearest_node, sqDist,
      annotate_times, annotateEdges, edgeTime?, metersPerMinute, mutG]
  refine ⟨?_, h2, h3⟩
  intro hEq
  rw [hEq, h3] at h2
  simp at h2

/-- C5: the boundary of a collected coordinate list is its convex hull:
the result is convex, its extreme points all belong to the collected
coordinates, and when the collected coordinates are all one single point
the result is the degenerate zero area singleton geometry of that point
rather than an error. -/
theorem hull_convex_vertices_degenerate (G : Graph) (sub : List ℕ) :
    Convex ℚ (hullOf (nodePoints G sub))
    ∧ (hullOf (nodePoints G sub)).extremePoints ℚ ⊆
        { p | p ∈ nodePoints G sub }
    ∧ ∀ q, nodePoints G sub ≠ [] → (∀ r ∈ nodePoints G sub, r = q) →
        hullOf (nodePoints G sub) = {q} := by
  refine ⟨convex_convexHull ℚ _, extremePoints_convexHull_subset, ?_⟩
  intro q hne hall
  have hset : { p | p ∈ nodePoints G sub } = ({q} : Set (ℚ × ℚ)) := by
    ext r
    simp only [Set.mem_setOf_eq, Set.mem_singleton_iff]
    constructor
    · exact fun hr => hall r hr
    · intro hr
      rcases List.exists_mem_of_ne_nil (nodePoints G sub) hne with ⟨a, hmem⟩
      have ha : a = q := hall a hmem
      rw [hr, ← ha]
      exact hmem
  rw [hullOf, hset, convexHull_singleton]

/-- Witness for C5 at a one point coordinate list. -/
theorem hull_degenerate_witness :
    (nodePoints posG [0] ≠ []
      ∧ ∀ r ∈ nodePoints posG [0], r = ((0:ℚ), (0:ℚ)))
    ∧ hullOf (nodePoints posG [0]) = {((0:ℚ), (0:ℚ))} :=
  ⟨⟨by decide, by decide⟩,
    (hull_convex_vertices_degenerate posG [0]).2.2 ((0:ℚ), (0:ℚ))
      (by decide) (by decide)⟩

/-- C6: under the default configuration the per edge divisor
meters_per_minute equals fifty meters per minute, that is three
kilometers per hour, not a value near eighty meters per minute derived
from 4.8 kilometers per hour. -/
theorem default_speed_divisor_is_50 :
    speed_default = 3 ∧ metersPerMinute speed_default = 50
    ∧ metersPerMinute speed_default < 75 := by
  refine ⟨rfl, ?_, ?_⟩
  · norm_num [metersPerMinute, speed_default]
  · norm_num [metersPerMinute, speed_default]

/-- C7: clipping a polygon to the same boundary twice gives the same
geometry as clipping once. -/
theorem clip_idempotent (P B : Set (ℚ × ℚ)) :
    clip (clip P B) B = clip P B := by
  unfold clip
  rw [Set.inter_assoc, Set.inter_self]

/-- C8: when the polygon and the clip mask have empty geometric
intersection, clip returns the explicit empty result marker; the
operation is total and never aborts. -/
theorem clip_empty_intersection (P B : Set (ℚ × ℚ)) (h : P ∩ B = ∅) :
    clip P B = ∅ := h

/-- Witness for C8 at two disjoint one point geometries. -/
theorem clip_empty_intersection_witness :
    ({((0:ℚ), (0:ℚ))} : Set (ℚ × ℚ)) ∩ {((1:ℚ), (1:ℚ))} = ∅
    ∧ clip {((0:ℚ), (0:ℚ))} {((1:ℚ), (1:ℚ))} = ∅ := by
  have h : ({((0:ℚ), (0:ℚ))} : Set (ℚ × ℚ)) ∩ {((1:ℚ), (1:ℚ))} = ∅ := by
    rw [Set.singleton_inter_eq_empty]
    norm_num [Set.mem_singleton_iff, Prod.ext_iff]
  exact ⟨h, clip_empty_intersection _ _ h⟩

/-- C9: the isochrone functions of the two scripts agree on every
input, both in the returned polygon and in the final state of the
graph. -/
theorem scripts_isochrone_equal :
    ∀ (G : Graph) (x y walk_time speed : ℚ),
      FSDO.get_isochrone_from_graph G x y walk_time speed
        = SP.get_isochrone_from_graph G x y walk_time speed :=
  fun _ _ _ _ _ => rfl

/-- C10: with positive speed and non negative length the per edge time
computation succeeds with a non negative finite value, while at speed
zero the divisor is zero, the unguarded division raises, and the whole
call fails. -/
theorem edge_time_requires_pos_speed (len speed : ℚ) :
    (0 < speed → 0 ≤ len →
      ∃ t, edgeTime? len (metersPerMinute speed) = some t ∧ 0 ≤ t)
    ∧ edgeTime? len (metersPerMinute 0) = none
    ∧ (FSDO.get_isochrone_from_graph mutG 0 0 10 0).1 = none := by
  refine ⟨?_, ?_, ?_⟩
  · intro hsp hlen
    have hmpm : 0 < metersPerMinute speed := by
      unfold metersPerMinute
      exact div_pos (mul_pos hsp (by norm_num)) (by norm_num)
    refine ⟨len / metersPerMinute speed, ?_,
      div_nonneg hlen (le_of_lt hmpm)⟩
    unfold edgeTime?
    rw [if_neg (ne_of_gt hmpm)]
  · have h : metersPerMinute 0 = 0 := by
      unfold metersPerMinute
      norm_num
    simp [edgeTime?, h]
  · norm_num [FSDO.get_isochrone_from_graph, get_nearest_node, sqDist,
      annotate_times, annotateEdges, edgeTime?, metersPerMinute, mutG]

/-- Witness for C10 at length one hundred meters and speed three. -/
theorem edge_time_pos_speed_witness :
    ((0:ℚ) < 3 ∧ (0:ℚ) ≤ 100)
    ∧ ∃ t, edgeTime? 100 (metersPerMinute 3) = some t ∧ 0 ≤ t :=
  ⟨⟨by decide, by decide⟩,
    (edge_time_requires_pos_speed 100 3).1 (by decide) (by decide)⟩

end NYCIso
